import Mathlib

/-!
Verification of the crawl → manifest → rewrite pipeline of the
ApplyWebsiteCrawledJan2025 repository.

The development shallowly embeds the three JavaScript programs
`src/crawler.js`, `src/webflow-crawler.js` and `src/build-site.js`.
Strings are Lean `String`s (lists of characters); the WHATWG `URL`
constructor is modelled for the absolute `scheme://host/path` URLs the
programs handle; network and render effects are oracle functions passed
explicitly; mutable module state (`visited`, `downloadedAssets`,
`failedUrls`, the manifest, fetch counters) is threaded as explicit
state values.
-/

/-! ## String primitives (character-list level) -/

/-- `pat` is a prefix of `l` (JS `String.startsWith` on char lists). -/
def isPrefixL : List Char → List Char → Bool
  | [], _ => true
  | _ :: _, [] => false
  | p :: ps, c :: cs => p = c && isPrefixL ps cs

/-- `pat` occurs as a contiguous substring of `l` (JS `String.includes`). -/
def containsSubL (pat : List Char) : List Char → Bool
  | [] => isPrefixL pat []
  | c :: cs => isPrefixL pat (c :: cs) || containsSubL pat cs

/-- JS `haystack.includes(needle)`. -/
def containsStr (haystack needle : String) : Bool :=
  containsSubL needle.data haystack.data

/-- Replace every non-overlapping occurrence of `p :: ps` in the list by
`rep`, scanning left to right and continuing after each replacement
(the semantics of JS `String.replace` with a global literal pattern).
Each step consumes at least one character and one unit of fuel, so with
fuel at least the input length the fuel never runs out. -/
def replaceAllFuel (p : Char) (ps rep : List Char) : Nat → List Char → List Char
  | _, [] => []
  | 0, l => l
  | fuel + 1, c :: cs =>
    if isPrefixL (p :: ps) (c :: cs) then
      rep ++ replaceAllFuel p ps rep fuel (cs.drop ps.length)
    else
      c :: replaceAllFuel p ps rep fuel cs

/-- JS `s.replace(new RegExp(pat, 'g'), rep)` for a literal pattern. -/
def replaceAllStr (s pat rep : String) : String :=
  match pat.data with
  | [] => s
  | p :: ps => String.mk (replaceAllFuel p ps rep.data s.data.length s.data)

/-- Characters strictly after the last occurrence of `ch`; the whole list
when `ch` does not occur (used for JS `path.basename`-style splitting). -/
def afterLastC (ch : Char) (l : List Char) : List Char :=
  l.foldl (fun acc c => if c = ch then [] else acc ++ [c]) []

/-- Drop the first character (JS `s.slice(1)`). -/
def strDrop1 (s : String) : String := String.mk (s.data.drop 1)

/-- JS `s.endsWith(suffix)`. -/
def strEndsWith (s suffix : String) : Bool :=
  isPrefixL suffix.data.reverse s.data.reverse

/-- JS `s.repeat(n)` (string repetition). -/
def strRepeat : Nat → String → String
  | 0, _ => ""
  | n + 1, s => s ++ strRepeat n s

/-- Accumulator pass for splitting on `/`: `cur` holds the reversed
characters of the segment being read. -/
def segsAux (cur : List Char) : List Char → List (List Char)
  | [] => if cur = [] then [] else [cur.reverse]
  | c :: cs =>
    if c = '/' then
      if cur = [] then segsAux [] cs else cur.reverse :: segsAux [] cs
    else segsAux (c :: cur) cs

/-- Split on `/` discarding empty segments, as
`s.split('/').filter(Boolean)` does in `build-site.js` line 8. -/
def segsL (l : List Char) : List (List Char) := segsAux [] l

/-! ## WHATWG URL model

The three programs call `new URL(s)` and read `.hostname` and
`.pathname`.  We model the constructor for absolute special-scheme URLs:
a non-empty alphabetic scheme, `://`, a non-empty authority (user-info
and port stripped from the hostname, hostname lower-cased), and a
pathname defaulting to `/`.  Any other shape throws in JS and parses to
`none` here. -/

/-- ASCII letter test for the URL scheme. -/
def isAlphaC (c : Char) : Bool :=
  ('a' ≤ c && c ≤ 'z') || ('A' ≤ c && c ≤ 'Z')

/-- ASCII lower-casing used by the URL host parser. -/
def toLowerC (c : Char) : Char :=
  if 'A' ≤ c && c ≤ 'Z' then Char.ofNat (c.toNat + 32) else c

/-- Split at the first occurrence of `pat`, returning the part before and
the part after the pattern. -/
def splitAtSub (pat : List Char) : List Char → Option (List Char × List Char)
  | [] => if pat = [] then some ([], []) else none
  | c :: cs =>
    if isPrefixL pat (c :: cs) then
      some ([], (c :: cs).drop pat.length)
    else
      match splitAtSub pat cs with
      | some (before, after) => some (c :: before, after)
      | none => none

/-- Longest prefix not containing any of the stop characters, paired with
the remainder (which starts with a stop character if non-empty). -/
def takeUntilAny (stops : List Char) (l : List Char) : List Char × List Char :=
  (l.takeWhile (fun c => ¬ stops.contains c), l.dropWhile (fun c => ¬ stops.contains c))

/-- Hostname and pathname of a parsed URL, the two fields the repository
reads from `new URL(...)`. -/
structure UrlParts where
  hostname : String
  pathname : String
deriving DecidableEq, Repr

/-- Character-list core of the URL constructor model. -/
def parseUrlL (l : List Char) : Option (List Char × List Char) :=
  match splitAtSub [':', '/', '/'] l with
  | none => none
  | some (scheme, rest) =>
    if scheme = [] || !scheme.all isAlphaC then none
    else
      let (auth, rest2) := takeUntilAny ['/', '?', '#'] rest
      if auth = [] then none
      else
        let hostPort := afterLastC '@' auth
        let host := (takeUntilAny [':'] hostPort).1
        if host = [] then none
        else
          let path :=
            match rest2 with
            | '/' :: _ => (takeUntilAny ['?', '#'] rest2).1
            | _ => ['/']
          some (host.map toLowerC, path)

/-- Model of `new URL(s)` restricted to the fields the repository uses;
`none` models the constructor throwing. -/
def parseUrl (s : String) : Option UrlParts :=
  (parseUrlL s.data).map fun hp => ⟨String.mk hp.1, String.mk hp.2⟩

/-! ## Domain filter

`crawler.js` lines 42–49 (`isAllowedDomain`) and `webflow-crawler.js`
lines 32–39 (`isWebflowAsset`) are the same program text over two
different fixed allow-lists:

    try { const hostname = new URL(url).hostname;
          return DOMAINS.some(domain => hostname.includes(domain)); }
    catch { return false; }
-/

/-- The shared body of `isAllowedDomain` / `isWebflowAsset`,
parameterised by the allow-list. -/
def isAllowedDomainGen (domains : List String) (url : String) : Bool :=
  match parseUrl url with
  | some u => domains.any (fun domain => containsStr u.hostname domain)
  | none => false

/-- `config.allowedDomains` of `crawler.js` lines 9–17. -/
def allowedDomainsConfig : List String :=
  ["apply.agency", "www.apply.agency", "webflow.com", "webflow.io",
   "d3e54v103j8qbb.cloudfront.net", "uploads-ssl.webflow.com",
   "assets.website-files.com"]

/-- `WEBFLOW_DOMAINS` of `webflow-crawler.js` lines 16–22. -/
def webflowDomains : List String :=
  ["webflow.com", "cdn.prod.website-files.com", "assets.website-files.com",
   "uploads-ssl.webflow.com", "assets-global.website-files.com"]

/-- `isAllowedDomain` of `crawler.js`. -/
def isAllowedDomain (url : String) : Bool :=
  isAllowedDomainGen allowedDomainsConfig url

/-- `isWebflowAsset` of `webflow-crawler.js`. -/
def isWebflowAsset (url : String) : Bool :=
  isAllowedDomainGen webflowDomains url

example : parseUrl "https://a.com/x" = some ⟨"a.com", "/x"⟩ := by decide
example : parseUrl "not a url" = none := by decide
example : isAllowedDomainGen ["a.com"] "https://a.com/x" = true := by decide
example : isAllowedDomainGen ["a.com"] "https://evil.com" = false := by decide
example : isWebflowAsset "https://assets.website-files.com/img/a.png" = true := by decide
example : isAllowedDomain "https://apply.agency/cases" = true := by decide

/-! ## Path derivation

JS `path.extname` (used at `crawler.js` line 149 and
`webflow-crawler.js` line 60): the extension of the last `/`-separated
component, empty when the only dot is its first character. -/

/-- Suffix of the list starting at its last `.`, if any. -/
def lastDotSuffix : List Char → Option (List Char)
  | [] => none
  | '.' :: cs => ((lastDotSuffix cs).orElse (fun _ => some ('.' :: cs)))
  | _ :: cs => lastDotSuffix cs

/-- Model of Node's `path.extname`. -/
def extnameJs (s : String) : String :=
  match afterLastC '/' s.data with
  | [] => ""
  | _ :: rest =>
    match lastDotSuffix rest with
    | some d => String.mk d
    | none => ""

example : extnameJs "https://cdn/x.png" = ".png" := by decide
example : extnameJs "/cases" = "" := by decide
example : extnameJs "/a/.bashrc" = "" := by decide

/-! ## Page output paths (claim C7)

`build-site.js` computes the same expression twice — line 28 (the
page's own file name used for relative-path depth) and line 93 (the
output path under `OUTPUT_DIR`):

    urlPath === '/' ? 'index.html'
                    : `${urlPath.slice(1)}${urlPath.endsWith('/') ? 'index.html' : ''}`
-/

/-- `build-site.js` lines 28 and 93: output-relative file path of a page
with source URL pathname `urlPath`. -/
def buildPagePath (urlPath : String) : String :=
  if urlPath = "/" then "index.html"
  else strDrop1 urlPath ++ (if strEndsWith urlPath "/" then "index.html" else "")

/-- `crawler.js` lines 144–151: output-relative file path.  The source
joins `config.outputDir` with the pathname, appends `index.html` to
trailing-slash paths and `.html` to extensionless paths; this is that
path with the fixed `outputDir` prefix removed. -/
def crawlerPagePath (urlPath : String) : String :=
  if strEndsWith urlPath "/" then strDrop1 urlPath ++ "index.html"
  else if extnameJs urlPath = "" then strDrop1 urlPath ++ ".html"
  else strDrop1 urlPath

example : buildPagePath "/" = "index.html" := by decide
example : buildPagePath "/cases" = "cases" := by decide
example : buildPagePath "/foo/" = "foo/index.html" := by decide
example : crawlerPagePath "/" = "index.html" := by decide
example : crawlerPagePath "/cases" = "cases.html" := by decide

/-! ## The `crawler.js` downloader (lines 51–73)

Module state mutated by `downloadAsset`: the `downloadedAssets` map, the
`failedUrls` set, plus a count of network fetches issued (the number of
`context.request.get` calls).  The network is an oracle `Nat → Bool`
giving the outcome of the n-th fetch of the run: `true` = the
fetch/body/write sequence succeeds, `false` = it throws. -/

/-- Association-list lookup (first binding wins). -/
def lookupA {α : Type} : List (String × α) → String → Option α
  | [], _ => none
  | (k, v) :: rest, key => if k = key then some v else lookupA rest key

/-- Association-list insert-or-replace (JS `Map.set` / object assignment). -/
def insertA {α : Type} : List (String × α) → String → α → List (String × α)
  | [], key, v => [(key, v)]
  | (k, w) :: rest, key, v =>
    if k = key then (k, v) :: rest else (k, w) :: insertA rest key v

/-- Set insertion (JS `Set.add`). -/
def insertS (l : List String) (x : String) : List String :=
  if l.contains x then l else l ++ [x]

/-- Mutable module state of `crawler.js`' downloader. -/
structure CrawlerDlState where
  downloadedAssets : List (String × String)
  failedUrls : List String
  fetchCount : Nat
deriving DecidableEq, Repr

/-- Fresh `crawler.js` module state. -/
def crawlerDlInit : CrawlerDlState := ⟨[], [], 0⟩

/-- `downloadAsset` of `crawler.js` lines 51–73.  Returns the local
relative path on success and the original URL on failure (line 71),
together with the updated module state.  `netOk` is the fetch oracle. -/
def crawlerDownloadAsset (netOk : Nat → Bool) (url : String)
    (st : CrawlerDlState) : String × CrawlerDlState :=
  match lookupA st.downloadedAssets url with
  | some p => (p, st)
  | none =>
    let ok := netOk st.fetchCount
    let st1 : CrawlerDlState :=
      { st with fetchCount := st.fetchCount + 1 }
    if ok then
      match parseUrl url with
      | some u =>
        let relativePath := "assets" ++ u.pathname
        (relativePath,
         { st1 with downloadedAssets := insertA st1.downloadedAssets url relativePath })
      | none =>
        (url, { st1 with failedUrls := insertS st1.failedUrls url })
    else
      (url, { st1 with failedUrls := insertS st1.failedUrls url })

/-- Local path `crawler.js` derives for a URL (line 60:
```assets${urlObj.pathname}``), `none` when the URL does not parse. -/
def crawlerLocalPath (url : String) : Option String :=
  (parseUrl url).map (fun u => "assets" ++ u.pathname)

/-! ## The `webflow-crawler.js` downloader (lines 41–84)

`downloadAsset(url, retries = 3)`: a retry loop whose only cross-call
state is the global fetch counter; the randomized backoff delay of line
81 draws from `[2000 * attempt, 5000 * attempt]`. -/

/-- An entry of the manifest's asset table (`webflow-crawler.js` lines
69–74). -/
structure AssetRef where
  originalUrl : String
  localPath : String
  hash : String
  extension : String
deriving DecidableEq, Repr

/-- The `AssetRef` built on a successful fetch (lines 59–74); `md5`
abstracts `createHash('md5')...digest('hex')`. -/
def mkAssetRef (md5 : String → String) (url : String) : AssetRef :=
  let h := md5 url
  let e := if extnameJs url = "" then ".bin" else extnameJs url
  ⟨url, "assets/" ++ h ++ e, h, e⟩

/-- Lower bound of the retry delay range of line 81. -/
def backoffMin (attempt : Nat) : Nat := 2000 * attempt

/-- Upper bound of the retry delay range of line 81. -/
def backoffMax (attempt : Nat) : Nat := 5000 * attempt

/-- `downloadAsset` of `webflow-crawler.js` lines 41–84, with
`attemptsLeft` attempts remaining and `c` fetches issued so far in the
run.  Returns the `AssetRef` (or `none` after the final failure, line
78) and the updated fetch count. -/
def webflowDownloadAsset (netOk : Nat → Bool) (md5 : String → String)
    (url : String) : Nat → Nat → Option AssetRef × Nat
  | 0, c => (none, c)
  | attemptsLeft + 1, c =>
    if netOk c then (some (mkAssetRef md5 url), c + 1)
    else if attemptsLeft = 0 then (none, c + 1)
    else webflowDownloadAsset netOk md5 url attemptsLeft (c + 1)

example :
    webflowDownloadAsset (fun k => k ≥ 2) (fun _ => "h") "https://cdn/x.png" 3 0 =
      (some (mkAssetRef (fun _ => "h") "https://cdn/x.png"), 3) := by decide
example :
    webflowDownloadAsset (fun _ => false) (fun _ => "h") "https://cdn/x.png" 3 0 =
      (none, 3) := by decide

/-! ## The `webflow-crawler.js` page coordinator (lines 86–242, 244–287)

Browser rendering is the oracle `render : url → Except error assets`
(the extracted asset-URL list of lines 162–215, or the message of the
exception caught at line 238).  `processPage` threads the manifest and
the global fetch count. -/

/-- A `manifest.pages` record (`webflow-crawler.js` lines 93, 224, 235,
240). -/
structure PageRecord where
  assets : List AssetRef
  rawHtml : Option String
  error : Option String
deriving DecidableEq, Repr

/-- Update the binding of `key` (no-op when absent), JS mutation of
`manifest.pages[url]`. -/
def updateA {α : Type} : List (String × α) → String → (α → α) → List (String × α)
  | [], _, _ => []
  | (k, v) :: rest, key, f =>
    if k = key then (k, f v) :: rest else (k, v) :: updateA rest key f

/-- The crawl-phase manifest (`webflow-crawler.js` lines 264–268;
`startTime`/`endTime` omitted as pure wall-clock data). -/
structure WManifest where
  pages : List (String × PageRecord)
  assets : List (String × AssetRef)
deriving DecidableEq, Repr

/-- The effect oracles of a `webflow-crawler.js` run. -/
structure WOracle where
  render : String → Except String (List String)
  netOk : Nat → Bool
  md5 : String → String

/-- One step of the per-asset loop of lines 220–228. -/
def wAssetStep (orc : WOracle) (url : String) (acc : WManifest × Nat)
    (a : String) : WManifest × Nat :=
  if isWebflowAsset a then
    match webflowDownloadAsset orc.netOk orc.md5 a 3 acc.2 with
    | (some r, c') =>
      ({ pages := updateA acc.1.pages url
           (fun rec => { rec with assets := rec.assets ++ [r] }),
         assets := insertA acc.1.assets r.originalUrl r }, c')
    | (none, c') => (acc.1, c')
  else acc

/-- `processPage` of `webflow-crawler.js` lines 86–242: skip
already-present pages, create the record, render, download the page's
Webflow assets, save the raw HTML, and on a render failure record the
error message on the page record. -/
def wProcessPage (orc : WOracle) (url : String) (m : WManifest) (c : Nat) :
    WManifest × Nat :=
  match lookupA m.pages url with
  | some _ => (m, c)
  | none =>
    let m0 : WManifest :=
      { m with pages := insertA m.pages url ⟨[], none, none⟩ }
    match orc.render url with
    | .error e =>
      ({ m0 with pages := updateA m0.pages url (fun r => { r with error := some e }) }, c)
    | .ok assets =>
      let mc := assets.foldl (wAssetStep orc url) (m0, c)
      ({ mc.1 with pages := (updateA mc.1.pages url
           (fun r => { r with rawHtml := some ("pages/" ++ orc.md5 url ++ ".html") })) }, mc.2)

/-- `main` of `webflow-crawler.js` lines 244–287 restricted to its
manifest-building effect: fold `processPage` over the target list
starting from the empty manifest. -/
def wCrawlPages (orc : WOracle) (urls : List String) : WManifest × Nat :=
  urls.foldl (fun (acc : WManifest × Nat) u => wProcessPage orc u acc.1 acc.2)
    (⟨[], []⟩, 0)

/-- `TARGET_PAGES` of `webflow-crawler.js` lines 11–14. -/
def targetPages : List String :=
  ["https://apply.agency/", "https://apply.agency/cases"]

/-! ## The site builder (`build-site.js`)

`processHtml` (lines 14–51) removes the first `<base ...>` tag, looks
the page up in the manifest and rewrites each of its assets' original
URLs in `src=`, `href=` and `url(...)` positions to a page-relative
path. -/

/-- The characters of the literal regex prefix `<base`. -/
def baseTagChars : List Char := ['<', 'b', 'a', 's', 'e']

/-- Drop through the first `>` inclusive; `none` when there is no `>`
(so the regex `[^>]*>` cannot complete a match). -/
def findClose : List Char → Option (List Char)
  | [] => none
  | '>' :: rest => some rest
  | _ :: rest => findClose rest

/-- First-match removal of the non-global regex `/<base[^>]*>/` of
`build-site.js` line 16: at the leftmost position where `<base` matches
and a later `>` exists, drop through that first `>`; everything else is
kept verbatim. -/
def removeBaseL : List Char → List Char
  | [] => []
  | c :: cs =>
    if isPrefixL baseTagChars (c :: cs) then
      match findClose ((c :: cs).drop 5) with
      | some rest => rest
      | none => c :: removeBaseL cs
    else c :: removeBaseL cs

/-- `rawContent.replace(/<base[^>]*>/, '')` of `build-site.js` line 16. -/
def removeFirstBase (s : String) : String := String.mk (removeBaseL s.data)

example :
    removeFirstBase "<head><base href=\"https://x/\"><base id=\"b2\"></head>" =
      "<head><base id=\"b2\"></head>" := by decide

/-- `getRelativePath` of `build-site.js` lines 7–12: one `../` per
path-segment of the page file name beyond the first, prefixed to the
asset's root-relative path. -/
def getRelativePath (frm dest : String) : String :=
  let fromParts := segsL frm.data
  let depth := fromParts.length - 1
  if depth > 0 then strRepeat depth "../" ++ dest else dest

example : getRelativePath "cases" "assets/x.png" = "assets/x.png" := by decide
example : getRelativePath "a/b" "assets/x.png" = "../assets/x.png" := by decide
example : getRelativePath "index.html" "assets/x.png" = "assets/x.png" := by decide

/-- A manifest asset entry as read by the builder (only the two fields
`processHtml` uses). -/
structure BAsset where
  originalUrl : String
  localPath : String
deriving DecidableEq, Repr

/-- A manifest page entry as read by the builder. -/
structure BPageInfo where
  assets : List BAsset
deriving DecidableEq, Repr

/-- The manifest as read by the builder (`manifest.pages`). -/
structure BManifest where
  pages : List (String × BPageInfo)
deriving DecidableEq, Repr

/-- The four instantiations of the regex `src=["']URL["']` (line 33):
one per concrete pair of quote characters. -/
def srcPatterns (url : String) : List String :=
  ["src=\"" ++ url ++ "\"", "src=\"" ++ url ++ "'",
   "src='" ++ url ++ "\"", "src='" ++ url ++ "'"]

/-- The four instantiations of the regex `href=["']URL["']` (line 39). -/
def hrefPatterns (url : String) : List String :=
  ["href=\"" ++ url ++ "\"", "href=\"" ++ url ++ "'",
   "href='" ++ url ++ "\"", "href='" ++ url ++ "'"]

/-- The nine instantiations of `url\(['"]?URL['"]?\)` (line 45): each
side's quote is independently absent, single or double. -/
def urlFnPatterns (url : String) : List String :=
  ["url(" ++ url ++ ")", "url(" ++ url ++ "')", "url(" ++ url ++ "\")",
   "url('" ++ url ++ ")", "url('" ++ url ++ "')", "url('" ++ url ++ "\")",
   "url(\"" ++ url ++ ")", "url(\"" ++ url ++ "')", "url(\"" ++ url ++ "\")"]

/-- The three `content.replace(...)` calls of lines 32–47 for one asset:
rewrite `src`, `href` and `url(...)` occurrences of the asset's
original URL to the page-relative local path. -/
def rewriteOne (fileName : String) (content : String) (a : BAsset) : String :=
  let rel := getRelativePath fileName a.localPath
  let c1 := (srcPatterns a.originalUrl).foldl
    (fun c p => replaceAllStr c p ("src=\"" ++ rel ++ "\"")) content
  let c2 := (hrefPatterns a.originalUrl).foldl
    (fun c p => replaceAllStr c p ("href=\"" ++ rel ++ "\"")) c1
  (urlFnPatterns a.originalUrl).foldl
    (fun c p => replaceAllStr c p ("url('" ++ rel ++ "')")) c2

/-- `processHtml` of `build-site.js` lines 14–51.  `none` models the
`new URL(pageUrl)` call of line 27 throwing inside the asset loop (only
reachable when the page has at least one asset). -/
def processHtml (rawContent pageUrl : String) (manifest : BManifest) :
    Option String :=
  let content := removeFirstBase rawContent
  match lookupA manifest.pages pageUrl with
  | none => some content
  | some pageInfo =>
    match pageInfo.assets with
    | [] => some content
    | _ =>
      match parseUrl pageUrl with
      | none => none
      | some parts =>
        some (pageInfo.assets.foldl
          (rewriteOne (buildPagePath parts.pathname)) content)

example :
    processHtml "<img src=\"https://cdn/x.png\">" "https://apply.agency/cases"
      ⟨[("https://apply.agency/cases",
         ⟨[⟨"https://cdn/x.png", "assets/x.png"⟩]⟩)]⟩ =
      some "<img src=\"assets/x.png\">" := by decide

/-! ## Invariant predicates and concrete fixtures -/

/-- Description of a processed page record (claim C8): a render failure
is recorded as data on the record (error message, no raw HTML, no
assets); a successful render leaves no error and records the raw-HTML
location. -/
def PageDesc (orc : WOracle) (u : String) (rec : PageRecord) : Prop :=
  (∀ e, orc.render u = Except.error e →
    rec.error = some e ∧ rec.rawHtml = none ∧ rec.assets = []) ∧
  (∀ l, orc.render u = Except.ok l →
    rec.error = none ∧ rec.rawHtml = some ("pages/" ++ orc.md5 u ++ ".html"))

/-- Every page record present in the manifest satisfies its
description. -/
def DescInv (orc : WOracle) (m : WManifest) : Prop :=
  ∀ u rec, lookupA m.pages u = some rec → PageDesc orc u rec

/-- Cross-reference invariant of the crawl manifest (claim C9): every
`AssetRef` in a page record is keyed in the global asset table under its
original URL with the very same value, every table entry is the
deterministic `AssetRef` of its key, and every entry originated from a
successful downloader call. -/
def ManifestInv (orc : WOracle) (m : WManifest) : Prop :=
  (∀ u rec, lookupA m.pages u = some rec → ∀ r ∈ rec.assets,
    lookupA m.assets r.originalUrl = some r ∧ r = mkAssetRef orc.md5 r.originalUrl) ∧
  (∀ u r, lookupA m.assets u = some r →
    u = r.originalUrl ∧ r = mkAssetRef orc.md5 u ∧
    ∃ c c', webflowDownloadAsset orc.netOk orc.md5 u 3 c = (some r, c'))

/-- Oracle where every render finds the same shared Webflow asset and
every fetch succeeds (exhibits the missing cross-page dedup). -/
def orcShared : WOracle :=
  { render := fun _ => Except.ok ["https://assets.website-files.com/a.png"],
    netOk := fun _ => true,
    md5 := fun _ => "0a" }

/-- Oracle where rendering the first target page fails and everything
else succeeds (exercises the failure-isolation path). -/
def orcRenderFail : WOracle :=
  { render := fun u =>
      if u = "https://apply.agency/" then Except.error "net::ERR_TIMED_OUT"
      else Except.ok [],
    netOk := fun _ => true,
    md5 := fun _ => "0a" }

/-- Builder manifest fixture: the `/cases` page referencing one
downloaded asset. -/
def mfCases : BManifest :=
  ⟨[("https://apply.agency/cases",
     ⟨[⟨"https://cdn/x.png", "assets/x.png"⟩]⟩)]⟩

/-- Builder manifest fixture: a depth-two page referencing the same
asset. -/
def mfDeep : BManifest :=
  ⟨[("https://apply.agency/a/b",
     ⟨[⟨"https://cdn/x.png", "assets/x.png"⟩]⟩)]⟩

/-- Two-page cyclic link graph: page 0 links to page 1 and page 1 links
back to page 0. -/
def cycLinks : Fin 2 → List (Fin 2) := fun i => [i + 1]

/-- Domain filter that admits both pages of the cyclic graph. -/
def cycAllowed : Fin 2 → Bool := fun _ => true

/-- A stand-in hash with 32-character output, injective on the two URLs
of the collision-freedom witness. -/
def testMd5 : String → String := fun s =>
  if s = "https://cdn/a.png" then "00000000000000000000000000000000"
  else "11111111111111111111111111111111"

/-! ## The `crawler.js` frontier (lines 75–174)

For the frontier claim the page universe is abstracted to `Fin n`, the
render-and-extract-links step (lines 83–159) to a `links` function and
`isAllowedDomain` to an `allowed` predicate; the model keeps exactly the
frontier logic of lines 76–77 (guard, then mark visited) and 162–166
(filter links, recurse on unvisited allowed ones).  The recursion is
fuel-indexed; fuel sufficiency is itself one of the proved claims. -/

/-- The `visited` set (line 24) plus the order in which pages passed the
guard of line 76 and were actually processed. -/
structure CrawlSt (n : Nat) where
  visited : Finset (Fin n)
  log : List (Fin n)

mutual

/-- `processPage` of `crawler.js`: return if visited (line 76), mark
visited (line 77), then follow the page's links (lines 162–166). -/
def processPageM {n : Nat} (links : Fin n → List (Fin n))
    (allowed : Fin n → Bool) : Nat → Fin n → CrawlSt n → CrawlSt n
  | 0, _, st => st
  | fuel + 1, url, st =>
    if url ∈ st.visited then st
    else goLinks links allowed fuel (links url)
      ⟨insert url st.visited, st.log ++ [url]⟩
termination_by fuel _ _ => (fuel, 0)

/-- The link loop of `crawler.js` lines 162–166. -/
def goLinks {n : Nat} (links : Fin n → List (Fin n))
    (allowed : Fin n → Bool) : Nat → List (Fin n) → CrawlSt n → CrawlSt n
  | _, [], st => st
  | fuel, l :: ls, st =>
    goLinks links allowed fuel ls
      (if allowed l = true ∧ l ∉ st.visited
       then processPageM links allowed fuel l st else st)
termination_by fuel ls _ => (fuel, ls.length + 1)

end

/-- A full run of `main` (line 181): crawl from `start` with empty
state; `n + 1` fuel always suffices (proved below). -/
def crawlRun (n : Nat) (links : Fin n → List (Fin n))
    (allowed : Fin n → Bool) (start : Fin n) : CrawlSt n :=
  processPageM links allowed (n + 1) start ⟨∅, []⟩

/-- Pages reachable from `start` along links that pass the domain
filter; the start page itself is processed unconditionally (line 181). -/
inductive ReachM {n : Nat} (links : Fin n → List (Fin n))
    (allowed : Fin n → Bool) (start : Fin n) : Fin n → Prop
  | base : ReachM links allowed start start
  | step {p q : Fin n} : ReachM links allowed start p → q ∈ links p →
      allowed q = true → ReachM links allowed start q

/-- `st'` extends `st` by a block `t` of newly processed pages: the log
grows by `t`, the visited set by exactly the same pages, and each new
page was unvisited before. -/
def ShapeExt {n : Nat} (st st' : CrawlSt n) : Prop :=
  ∃ t : List (Fin n), st'.log = st.log ++ t ∧
    st'.visited = st.visited ∪ t.toFinset ∧ t.Nodup ∧ ∀ x ∈ t, x ∉ st.visited

theorem shapeExt_refl {n : Nat} (st : CrawlSt n) : ShapeExt st st := by
  exact ⟨[], by simp, by simp, List.nodup_nil, by simp⟩

theorem shapeExt_trans {n : Nat} {a b c : CrawlSt n}
    (h1 : ShapeExt a b) (h2 : ShapeExt b c) : ShapeExt a c := by
  obtain ⟨t1, hl1, hv1, hn1, hf1⟩ := h1
  obtain ⟨t2, hl2, hv2, hn2, hf2⟩ := h2
  refine ⟨t1 ++ t2, ?_, ?_, ?_, ?_⟩
  · rw [hl2, hl1, List.append_assoc]
  · rw [hv2, hv1, List.toFinset_append, Finset.union_assoc]
  · rw [List.nodup_append]
    refine ⟨hn1, hn2, ?_⟩
    intro x hx1 hx2
    exact hf2 x hx2 (hv1 ▸ Finset.mem_union_right _ (List.mem_toFinset.mpr hx1))
  · intro x hx
    rcases List.mem_append.mp hx with h | h
    · exact hf1 x h
    · intro hv
      exact hf2 x h (hv1 ▸ Finset.mem_union_left _ hv)

theorem shapeExt_visited_subset {n : Nat} {a b : CrawlSt n}
    (h : ShapeExt a b) : a.visited ⊆ b.visited := by
  obtain ⟨t, _, hv, _, _⟩ := h
  rw [hv]
  exact Finset.subset_union_left

/-- The list-loop part of the shape property follows from the page part
at the same fuel. -/
theorem goLinks_shape_of {n : Nat} (links : Fin n → List (Fin n))
    (allowed : Fin n → Bool) (fuel : Nat)
    (hP : ∀ u st, ShapeExt st (processPageM links allowed fuel u st)) :
    ∀ ls st, ShapeExt st (goLinks links allowed fuel ls st) := by
  intro ls
  induction ls with
  | nil =>
    intro st
    simp only [goLinks]
    exact shapeExt_refl st
  | cons l ls ih =>
    intro st
    simp only [goLinks]
    have hmid : ShapeExt st
        (if allowed l = true ∧ l ∉ st.visited
         then processPageM links allowed fuel l st else st) := by
      split
      · exact hP l st
      · exact shapeExt_refl st
    exact shapeExt_trans hmid (ih _)

/-- Shape of a crawl step: the state only ever grows by a block of
fresh, pairwise-distinct pages (claim C6, bookkeeping part). -/
theorem crawl_shape {n : Nat} (links : Fin n → List (Fin n))
    (allowed : Fin n → Bool) :
    ∀ fuel : Nat,
      (∀ u st, ShapeExt st (processPageM links allowed fuel u st)) ∧
      (∀ ls st, ShapeExt st (goLinks links allowed fuel ls st)) := by
  intro fuel
  induction fuel with
  | zero =>
    have hP : ∀ (u : Fin n) st, ShapeExt st (processPageM links allowed 0 u st) := by
      intro u st
      simp only [processPageM]
      exact shapeExt_refl st
    exact ⟨hP, goLinks_shape_of links allowed 0 hP⟩
  | succ fuel ih =>
    have hP : ∀ (u : Fin n) st, ShapeExt st (processPageM links allowed (fuel + 1) u st) := by
      intro u st
      simp only [processPageM]
      split
      · exact shapeExt_refl st
      · rename_i hu
        refine shapeExt_trans (b := ⟨insert u st.visited, st.log ++ [u]⟩)
          ⟨[u], rfl, ?_, List.nodup_singleton u, ?_⟩ (ih.2 _ _)
        · ext x
          simp [or_comm]
        · simpa using hu
    exact ⟨hP, goLinks_shape_of links allowed (fuel + 1) hP⟩

/-- A page fed to `processPage` with fuel available ends up visited. -/
theorem mem_visited_proc {n : Nat} (links : Fin n → List (Fin n))
    (allowed : Fin n → Bool) (fuel : Nat) (u : Fin n) (st : CrawlSt n)
    (hfuel : 1 ≤ fuel) :
    u ∈ (processPageM links allowed fuel u st).visited := by
  cases fuel with
  | zero => omega
  | succ f =>
    simp only [processPageM]
    split
    · assumption
    · exact shapeExt_visited_subset ((crawl_shape links allowed f).2 _ _)
        (Finset.mem_insert_self u st.visited)

/-- Marking a fresh page visited strictly shrinks the unvisited set. -/
theorem card_unvisited_insert_lt {n : Nat} (V : Finset (Fin n)) (u : Fin n)
    (hu : u ∉ V) :
    (Finset.univ \ insert u V).card < (Finset.univ \ V).card := by
  apply Finset.card_lt_card
  rw [Finset.ssubset_iff_of_subset
    (Finset.sdiff_subset_sdiff (Finset.Subset.refl _) (Finset.subset_insert u V))]
  exact ⟨u, Finset.mem_sdiff.mpr ⟨Finset.mem_univ u, hu⟩,
    by simp [Finset.mem_sdiff]⟩

/-- Growing the visited set cannot grow the unvisited count. -/
theorem card_unvisited_mono {n : Nat} {V W : Finset (Fin n)} (h : V ⊆ W) :
    (Finset.univ \ W).card ≤ (Finset.univ \ V).card :=
  Finset.card_le_card (Finset.sdiff_subset_sdiff (Finset.Subset.refl _) h)

/-- Fuel stability of the link loop follows from fuel stability for
pages at the same fuel. -/
theorem goLinks_stable_of {n : Nat} (links : Fin n → List (Fin n))
    (allowed : Fin n → Bool) (f1 : Nat)
    (hP : ∀ f2 (u : Fin n) st, (Finset.univ \ st.visited).card < f1 →
      (Finset.univ \ st.visited).card < f2 →
      processPageM links allowed f1 u st = processPageM links allowed f2 u st) :
    ∀ f2 ls (st : CrawlSt n), (Finset.univ \ st.visited).card < f1 →
      (Finset.univ \ st.visited).card < f2 →
      goLinks links allowed f1 ls st = goLinks links allowed f2 ls st := by
  intro f2 ls
  induction ls with
  | nil =>
    intro st _ _
    simp only [goLinks]
  | cons l ls ih =>
    intro st h1 h2
    simp only [goLinks]
    have hmid :
        (if allowed l = true ∧ l ∉ st.visited
         then processPageM links allowed f2 l st else st)
        = (if allowed l = true ∧ l ∉ st.visited
           then processPageM links allowed f1 l st else st) := by
      split
      · exact (hP f2 l st h1 h2).symm
      · rfl
    rw [hmid]
    have hsub : st.visited ⊆
        (if allowed l = true ∧ l ∉ st.visited
         then processPageM links allowed f1 l st else st).visited := by
      split
      · exact shapeExt_visited_subset ((crawl_shape links allowed f1).1 _ _)
      · exact Finset.Subset.refl _
    have hle := card_unvisited_mono hsub
    exact ih _ (Nat.lt_of_le_of_lt hle h1) (Nat.lt_of_le_of_lt hle h2)

/-- Fuel stability: any two fuel values exceeding the number of pages
still unvisited produce identical crawl results — the fuel-indexed model
of the fact that the recursion of `crawler.js` terminates. -/
theorem crawl_stable {n : Nat} (links : Fin n → List (Fin n))
    (allowed : Fin n → Bool) :
    ∀ f1 f2 (u : Fin n) (st : CrawlSt n),
      (Finset.univ \ st.visited).card < f1 →
      (Finset.univ \ st.visited).card < f2 →
      processPageM links allowed f1 u st = processPageM links allowed f2 u st := by
  intro f1
  induction f1 with
  | zero =>
    intro f2 u st h1 _
    omega
  | succ f1 ih =>
    intro f2 u st h1 h2
    cases f2 with
    | zero => omega
    | succ f2 =>
      by_cases hu : u ∈ st.visited
      · simp only [processPageM, if_pos hu]
      · simp only [processPageM, if_neg hu]
        have hcard0 :
            (Finset.univ \ (insert u st.visited)).card < (Finset.univ \ st.visited).card :=
          card_unvisited_insert_lt st.visited u hu
        have hlt1 : (Finset.univ \
            ((⟨insert u st.visited, st.log ++ [u]⟩ : CrawlSt n).visited)).card < f1 := by
          show (Finset.univ \ insert u st.visited).card < f1
          omega
        have hlt2 : (Finset.univ \
            ((⟨insert u st.visited, st.log ++ [u]⟩ : CrawlSt n).visited)).card < f2 := by
          show (Finset.univ \ insert u st.visited).card < f2
          omega
        exact goLinks_stable_of links allowed f1 ih f2 (links u)
          ⟨insert u st.visited, st.log ++ [u]⟩ hlt1 hlt2

/-- Closure of the link loop, given closure for pages at the same
fuel: every allowed link in the worklist ends up visited, and every
newly processed page has all its allowed links visited. -/
theorem goLinks_closure_of {n : Nat} (links : Fin n → List (Fin n))
    (allowed : Fin n → Bool) (fuel : Nat)
    (hP : ∀ (u : Fin n) st, (Finset.univ \ st.visited).card < fuel →
      ∀ p, p ∈ (processPageM links allowed fuel u st).log → p ∉ st.log →
        ∀ q ∈ links p, allowed q = true →
          q ∈ (processPageM links allowed fuel u st).visited) :
    ∀ ls (st : CrawlSt n), (Finset.univ \ st.visited).card < fuel →
      (∀ q ∈ ls, allowed q = true → q ∈ (goLinks links allowed fuel ls st).visited) ∧
      (∀ p, p ∈ (goLinks links allowed fuel ls st).log → p ∉ st.log →
        ∀ q ∈ links p, allowed q = true →
          q ∈ (goLinks links allowed fuel ls st).visited) := by
  intro ls
  induction ls with
  | nil =>
    intro st _
    simp only [goLinks]
    exact ⟨fun q hq _ => absurd hq (List.not_mem_nil q),
      fun p hp hnp => absurd hp hnp⟩
  | cons l ls ih =>
    intro st hcard
    have hfuel1 : 1 ≤ fuel := by omega
    by_cases hguard : allowed l = true ∧ l ∉ st.visited
    · simp only [goLinks, if_pos hguard]
      have hmidsub : st.visited ⊆ (processPageM links allowed fuel l st).visited :=
        shapeExt_visited_subset ((crawl_shape links allowed fuel).1 _ _)
      have hmidcard :
          (Finset.univ \ (processPageM links allowed fuel l st).visited).card < fuel :=
        Nat.lt_of_le_of_lt (card_unvisited_mono hmidsub) hcard
      obtain ⟨ihA, ihB⟩ := ih (processPageM links allowed fuel l st) hmidcard
      have hrest :
          (processPageM links allowed fuel l st).visited ⊆
            (goLinks links allowed fuel ls (processPageM links allowed fuel l st)).visited :=
        shapeExt_visited_subset ((crawl_shape links allowed fuel).2 _ _)
      constructor
      · intro q hq ha
        rcases List.mem_cons.mp hq with rfl | hq'
        · exact hrest (mem_visited_proc links allowed fuel q st hfuel1)
        · exact ihA q hq' ha
      · intro p hp hnp q hq ha
        by_cases hpm : p ∈ (processPageM links allowed fuel l st).log
        · exact hrest (hP l st hcard p hpm hnp q hq ha)
        · exact ihB p hp hpm q hq ha
    · simp only [goLinks, if_neg hguard]
      obtain ⟨ihA, ihB⟩ := ih st hcard
      constructor
      · intro q hq ha
        rcases List.mem_cons.mp hq with rfl | hq'
        · have hl : q ∈ st.visited := by
            by_contra hq2
            exact hguard ⟨ha, hq2⟩
          exact shapeExt_visited_subset
            ((crawl_shape links allowed fuel).2 ls st) hl
        · exact ihA q hq' ha
      · exact ihB

/-- Closure: with sufficient fuel, every page processed during a crawl
step ends with all its allowed links visited. -/
theorem crawl_closure {n : Nat} (links : Fin n → List (Fin n))
    (allowed : Fin n → Bool) :
    ∀ fuel : Nat, ∀ (u : Fin n) st,
      (Finset.univ \ st.visited).card < fuel →
      ∀ p, p ∈ (processPageM links allowed fuel u st).log → p ∉ st.log →
        ∀ q ∈ links p, allowed q = true →
          q ∈ (processPageM links allowed fuel u st).visited := by
  intro fuel
  induction fuel with
  | zero =>
    intro u st hcard
    omega
  | succ fuel ih =>
    intro u st hcard p hp hnp q hq ha
    by_cases hu : u ∈ st.visited
    · simp only [processPageM, if_pos hu] at hp ⊢
      exact absurd hp hnp
    · simp only [processPageM, if_neg hu] at hp ⊢
      have hcard0 : (Finset.univ \
          ((⟨insert u st.visited, st.log ++ [u]⟩ : CrawlSt n).visited)).card < fuel := by
        have := card_unvisited_insert_lt st.visited u hu
        show (Finset.univ \ insert u st.visited).card < fuel
        omega
      obtain ⟨hA, hB⟩ := goLinks_closure_of links allowed fuel ih
        (links u) ⟨insert u st.visited, st.log ++ [u]⟩ hcard0
      by_cases hpu : p = u
      · subst hpu
        exact hA q hq ha
      · refine hB p hp ?_ q hq ha
        show p ∉ st.log ++ [u]
        simp only [List.mem_append, List.mem_singleton]
        rintro (h | h)
        · exact hnp h
        · exact hpu h

/-- Claim C6: frontier safety of `crawler.js`.  For every finite page
graph, (1) no page is ever processed twice (the crawl log has no
duplicates), (2) every page reachable from the start page along
allowed links is processed, and (3) any fuel beyond the number of
pages yields the same final state — the fuel-indexed statement that
the recursion terminates once every reachable page is visited. -/
theorem crawl_frontier_safe (n : Nat) (links : Fin n → List (Fin n))
    (allowed : Fin n → Bool) (start : Fin n) :
    (crawlRun n links allowed start).log.Nodup ∧
    (∀ p, ReachM links allowed start p → p ∈ (crawlRun n links allowed start).log) ∧
    (∀ fuel, n < fuel →
      processPageM links allowed fuel start ⟨∅, []⟩ = crawlRun n links allowed start) := by
  have hcards : (Finset.univ \ ((⟨∅, []⟩ : CrawlSt n).visited)).card = n := by
    show (Finset.univ \ (∅ : Finset (Fin n))).card = n
    simp
  obtain ⟨t, hlog, hvis, hnodup, -⟩ :=
    (crawl_shape links allowed (n + 1)).1 start (⟨∅, []⟩ : CrawlSt n)
  have hlog' : (crawlRun n links allowed start).log = t := by
    simpa using hlog
  have hvis' : (crawlRun n links allowed start).visited =
      (crawlRun n links allowed start).log.toFinset := by
    rw [hlog']
    show (processPageM links allowed (n + 1) start ⟨∅, []⟩).visited = t.toFinset
    rw [hvis]
    show (∅ : Finset (Fin n)) ∪ t.toFinset = t.toFinset
    simp
  refine ⟨hlog' ▸ hnodup, ?_, ?_⟩
  · intro p hreach
    have hstart : start ∈ (crawlRun n links allowed start).log := by
      have hmem := mem_visited_proc links allowed (n + 1) start
        (⟨∅, []⟩ : CrawlSt n) (by omega)
      rw [show processPageM links allowed (n + 1) start ⟨∅, []⟩ =
        crawlRun n links allowed start from rfl, hvis'] at hmem
      exact List.mem_toFinset.mp hmem
    induction hreach with
    | base => exact hstart
    | step hr hqlinks hqallow ih =>
      rename_i p' q'
      have hclose := crawl_closure links allowed (n + 1) start
        (⟨∅, []⟩ : CrawlSt n) (by omega) p' ih (List.not_mem_nil p')
        q' hqlinks hqallow
      rw [show processPageM links allowed (n + 1) start ⟨∅, []⟩ =
        crawlRun n links allowed start from rfl, hvis'] at hclose
      exact List.mem_toFinset.mp hclose
  · intro fuel hfuel
    exact crawl_stable links allowed fuel (n + 1) start ⟨∅, []⟩
      (by omega) (by omega)

/-! ## Association-list and downloader lemmas -/

theorem lookupA_insertA_self {α : Type} (l : List (String × α)) (k : String) (v : α) :
    lookupA (insertA l k v) k = some v := by
  induction l with
  | nil => simp [insertA, lookupA]
  | cons kv rest ih =>
    obtain ⟨kk, vv⟩ := kv
    by_cases h : kk = k
    · simp [insertA, lookupA, h]
    · simp [insertA, lookupA, h, ih]

theorem lookupA_insertA_ne {α : Type} (l : List (String × α)) (k k' : String)
    (v : α) (h : k' ≠ k) :
    lookupA (insertA l k v) k' = lookupA l k' := by
  induction l with
  | nil => simp [insertA, lookupA, Ne.symm h]
  | cons kv rest ih =>
    obtain ⟨kk, vv⟩ := kv
    by_cases hk : kk = k
    · subst hk
      simp [insertA, lookupA, Ne.symm h]
    · simp [insertA, lookupA, hk, ih]

theorem lookupA_updateA_self {α : Type} (l : List (String × α)) (k : String)
    (f : α → α) :
    lookupA (updateA l k f) k = (lookupA l k).map f := by
  induction l with
  | nil => simp [updateA, lookupA]
  | cons kv rest ih =>
    obtain ⟨kk, vv⟩ := kv
    by_cases h : kk = k
    · simp [updateA, lookupA, h]
    · simp [updateA, lookupA, h, ih]

theorem lookupA_updateA_ne {α : Type} (l : List (String × α)) (k k' : String)
    (f : α → α) (h : k' ≠ k) :
    lookupA (updateA l k f) k' = lookupA l k' := by
  induction l with
  | nil => simp [updateA, lookupA]
  | cons kv rest ih =>
    obtain ⟨kk, vv⟩ := kv
    by_cases hk : kk = k
    · subst hk
      simp [updateA, lookupA, Ne.symm h]
    · simp [updateA, lookupA, hk, ih]

/-- A URL freshly added to a set is a member afterwards. -/
theorem mem_insertS_self (l : List String) (x : String) : x ∈ insertS l x := by
  by_cases h : l.contains x
  · have hm : x ∈ l := by simpa using h
    simp [insertS, h, hm]
  · have hm : x ∉ l := by simpa using h
    simp [insertS, h, hm]

/-- A successful `webflow-crawler.js` download always returns the
deterministic `AssetRef` of its URL. -/
theorem webflowDownloadAsset_some {f : Nat → Bool} {md5 : String → String}
    {url : String} :
    ∀ {att c : Nat} {r : AssetRef} {c' : Nat},
      webflowDownloadAsset f md5 url att c = (some r, c') →
      r = mkAssetRef md5 url := by
  intro att
  induction att with
  | zero =>
    intro c r c' h
    simp [webflowDownloadAsset] at h
  | succ att ih =>
    intro c r c' h
    simp only [webflowDownloadAsset] at h
    by_cases hf : f c
    · rw [if_pos hf] at h
      injection h with h1 h2
      injection h1 with h1
      exact h1.symm
    · rw [if_neg hf] at h
      by_cases ha : att = 0
      · rw [if_pos ha] at h
        simp at h
      · rw [if_neg ha] at h
        exact ih h

/-! ## Page-record bookkeeping of the webflow coordinator -/

/-- The per-asset loop never touches other pages' records. -/
theorem wAssetStep_pages_ne (orc : WOracle) (url : String)
    (acc : WManifest × Nat) (a : String) (v : String) (hv : v ≠ url) :
    lookupA (wAssetStep orc url acc a).1.pages v = lookupA acc.1.pages v := by
  simp only [wAssetStep]
  split
  · split
    · exact lookupA_updateA_ne _ _ _ _ hv
    · rfl
  · rfl

/-- The per-asset loop only ever appends to the current page's asset
list. -/
theorem wAssetStep_pages_self (orc : WOracle) (url : String)
    (acc : WManifest × Nat) (a : String) (rec : PageRecord)
    (h : lookupA acc.1.pages url = some rec) :
    ∃ refs : List AssetRef,
      lookupA (wAssetStep orc url acc a).1.pages url =
        some { rec with assets := rec.assets ++ refs } := by
  simp only [wAssetStep]
  split
  · split
    · rename_i r cc heq
      refine ⟨[r], ?_⟩
      rw [lookupA_updateA_self, h]
      rfl
    · exact ⟨[], by simpa using h⟩
  · exact ⟨[], by simpa using h⟩

/-- Fold form of the two preceding lemmas. -/
theorem foldAssets_pages (orc : WOracle) (url : String) :
    ∀ (as : List String) (acc : WManifest × Nat),
      (∀ v, v ≠ url →
        lookupA (as.foldl (wAssetStep orc url) acc).1.pages v = lookupA acc.1.pages v) ∧
      (∀ rec, lookupA acc.1.pages url = some rec →
        ∃ refs, lookupA (as.foldl (wAssetStep orc url) acc).1.pages url =
          some { rec with assets := rec.assets ++ refs }) := by
  intro as
  induction as with
  | nil =>
    intro acc
    exact ⟨fun v _ => rfl, fun rec h => ⟨[], by simpa using h⟩⟩
  | cons a as ih =>
    intro acc
    constructor
    · intro v hv
      rw [List.foldl_cons, (ih _).1 v hv, wAssetStep_pages_ne orc url acc a v hv]
    · intro rec h
      obtain ⟨refs1, h1⟩ := wAssetStep_pages_self orc url acc a rec h
      obtain ⟨refs2, h2⟩ := (ih _).2 _ h1
      refine ⟨refs1 ++ refs2, ?_⟩
      rw [List.foldl_cons, h2]
      simp [List.append_assoc]

/-- Every page fed to `processPage` has a record afterwards. -/
theorem wProcessPage_present (orc : WOracle) (url : String) (m : WManifest)
    (c : Nat) :
    lookupA (wProcessPage orc url m c).1.pages url ≠ none := by
  simp only [wProcessPage]
  cases hm : lookupA m.pages url with
  | some rec => simp [hm]
  | none =>
    simp only [hm]
    cases hr : orc.render url with
    | error e =>
      simp only [lookupA_updateA_self, lookupA_insertA_self]
      simp
    | ok assets =>
      have hm0 : lookupA (({ m with pages := insertA m.pages url ⟨[], none, none⟩ }
            : WManifest).pages) url = some ⟨[], none, none⟩ :=
        lookupA_insertA_self _ _ _
      obtain ⟨refs, hrefs⟩ := (foldAssets_pages orc url assets
        ({ m with pages := insertA m.pages url ⟨[], none, none⟩ }, c)).2 _ hm0
      simp only [lookupA_updateA_self, hrefs]
      simp

/-- Existing page records survive a `processPage` call (no record is
ever deleted). -/
theorem wProcessPage_preserves_present (orc : WOracle) (url : String)
    (m : WManifest) (c : Nat) (v : String)
    (h : lookupA m.pages v ≠ none) :
    lookupA (wProcessPage orc url m c).1.pages v ≠ none := by
  by_cases hv : v = url
  · subst hv
    exact wProcessPage_present orc v m c
  · simp only [wProcessPage]
    cases hm : lookupA m.pages url with
    | some rec => simpa [hm] using h
    | none =>
      simp only [hm]
      cases hr : orc.render url with
      | error e =>
        rw [lookupA_updateA_ne _ _ _ _ hv, lookupA_insertA_ne _ _ _ _ hv]
        exact h
      | ok assets =>
        rw [lookupA_updateA_ne _ _ _ _ hv,
          (foldAssets_pages orc url assets _).1 v hv,
          lookupA_insertA_ne _ _ _ _ hv]
        exact h

/-- `processPage` keeps every page record satisfying its description:
the new record carries the render error or the raw-HTML location, and
no other record changes. -/
theorem wProcessPage_descInv (orc : WOracle) (url : String) (m : WManifest)
    (c : Nat) (h : DescInv orc m) : DescInv orc (wProcessPage orc url m c).1 := by
  intro v rec hv
  simp only [wProcessPage] at hv
  cases hm : lookupA m.pages url with
  | some rec0 =>
    simp only [hm] at hv
    exact h v rec hv
  | none =>
    simp only [hm] at hv
    cases hr : orc.render url with
    | error e =>
      simp only [hr] at hv
      by_cases hvu : v = url
      · subst hvu
        rw [lookupA_updateA_self, lookupA_insertA_self] at hv
        injection hv with hv
        constructor
        · intro e' he'
          rw [hr] at he'
          injection he' with he'
          subst he'
          rw [← hv]
          exact ⟨rfl, rfl, rfl⟩
        · intro l hl
          rw [hr] at hl
          cases hl
      · rw [lookupA_updateA_ne _ _ _ _ hvu, lookupA_insertA_ne _ _ _ _ hvu] at hv
        exact h v rec hv
    | ok assets =>
      simp only [hr] at hv
      by_cases hvu : v = url
      · subst hvu
        have hm0 : lookupA (({ m with pages := insertA m.pages v ⟨[], none, none⟩ }
              : WManifest).pages) v = some ⟨[], none, none⟩ :=
          lookupA_insertA_self _ _ _
        obtain ⟨refs, hrefs⟩ := (foldAssets_pages orc v assets
          ({ m with pages := insertA m.pages v ⟨[], none, none⟩ }, c)).2 _ hm0
        rw [lookupA_updateA_self, hrefs] at hv
        injection hv with hv
        constructor
        · intro e he
          rw [hr] at he
          cases he
        · intro l hl
          rw [← hv]
          exact ⟨rfl, rfl⟩
      · rw [lookupA_updateA_ne _ _ _ _ hvu,
          (foldAssets_pages orc url assets _).1 v hvu,
          lookupA_insertA_ne _ _ _ _ hvu] at hv
        exact h v rec hv

/-- Folding `processPage` over a target list preserves the description
invariant, preserves existing records, and gives every listed page a
record. -/
theorem wCrawl_fold_inv (orc : WOracle) :
    ∀ (urls : List String) (acc : WManifest × Nat), DescInv orc acc.1 →
      DescInv orc (urls.foldl
        (fun (a : WManifest × Nat) u => wProcessPage orc u a.1 a.2) acc).1 ∧
      (∀ v, lookupA acc.1.pages v ≠ none →
        lookupA (urls.foldl
          (fun (a : WManifest × Nat) u => wProcessPage orc u a.1 a.2) acc).1.pages v ≠ none) ∧
      (∀ u, u ∈ urls →
        lookupA (urls.foldl
          (fun (a : WManifest × Nat) u => wProcessPage orc u a.1 a.2) acc).1.pages u ≠ none) := by
  intro urls
  induction urls with
  | nil =>
    intro acc hd
    refine ⟨hd, fun v hv => hv, ?_⟩
    intro u hu
    cases hu
  | cons u0 rest ih =>
    intro acc hd
    rw [List.foldl_cons]
    obtain ⟨ih1, ih2, ih3⟩ := ih (wProcessPage orc u0 acc.1 acc.2)
      (wProcessPage_descInv orc u0 acc.1 acc.2 hd)
    refine ⟨ih1, ?_, ?_⟩
    · intro v hv
      exact ih2 v (wProcessPage_preserves_present orc u0 acc.1 acc.2 v hv)
    · intro u hu
      rcases List.mem_cons.mp hu with rfl | hu'
      · exact ih2 u (wProcessPage_present orc u acc.1 acc.2)
      · exact ih3 u hu'

/-- Claim C8: failure isolation.  For every effect oracle and target
list, every target page ends up with a record in the manifest — a
render failure on one page never prevents the others from being
processed; a page whose render failed has the error message recorded as
data (and no raw HTML, no assets), while a page whose render succeeded
has its raw-HTML location recorded regardless of how many of its asset
downloads failed. -/
theorem page_failure_isolated (orc : WOracle) (urls : List String) :
    ∀ u ∈ urls, ∃ rec,
      lookupA (wCrawlPages orc urls).1.pages u = some rec ∧
      (∀ e, orc.render u = Except.error e →
        rec.error = some e ∧ rec.rawHtml = none ∧ rec.assets = []) ∧
      (∀ l, orc.render u = Except.ok l →
        rec.error = none ∧ rec.rawHtml = some ("pages/" ++ orc.md5 u ++ ".html")) := by
  intro u hu
  have hd0 : DescInv orc (⟨[], []⟩ : WManifest) := by
    intro v rec hv
    simp [lookupA] at hv
  obtain ⟨h1, -, h3⟩ := wCrawl_fold_inv orc urls ((⟨[], []⟩ : WManifest), 0) hd0
  have hpresent := h3 u hu
  cases hlook : lookupA (wCrawlPages orc urls).1.pages u with
  | none => exact absurd hlook hpresent
  | some rec => exact ⟨rec, rfl, h1 u rec hlook⟩

/-- Recording one successfully downloaded asset — appending it to a
page's list and (re)binding it in the global table — preserves the
cross-reference invariant. -/
theorem manifestInv_push (orc : WOracle) (m : WManifest) (url a : String)
    (r : AssetRef) (hr : r = mkAssetRef orc.md5 a)
    (hdl : ∃ c c', webflowDownloadAsset orc.netOk orc.md5 a 3 c = (some r, c'))
    (h : ManifestInv orc m) :
    ManifestInv orc
      ⟨updateA m.pages url (fun rec => { rec with assets := rec.assets ++ [r] }),
       insertA m.assets r.originalUrl r⟩ := by
  have hro : r.originalUrl = a := by rw [hr]; rfl
  obtain ⟨hpages, hassets⟩ := h
  have hfix : ∀ rr : AssetRef, rr = mkAssetRef orc.md5 rr.originalUrl →
      rr.originalUrl = r.originalUrl → rr = r := by
    intro rr h1 h2
    rw [h1, h2, hro, ← hr]
  have hside : ∀ rr : AssetRef, rr = mkAssetRef orc.md5 rr.originalUrl →
      lookupA m.assets rr.originalUrl = some rr →
      lookupA (insertA m.assets r.originalUrl r) rr.originalUrl = some rr := by
    intro rr h1 h2
    by_cases hk : rr.originalUrl = r.originalUrl
    · rw [hk, lookupA_insertA_self, hfix rr h1 hk]
    · rw [lookupA_insertA_ne _ _ _ _ hk]
      exact h2
  constructor
  · intro v rec hv
    by_cases hvu : v = url
    · subst hvu
      rw [lookupA_updateA_self] at hv
      cases hold : lookupA m.pages v with
      | none =>
        rw [hold] at hv
        cases hv
      | some rec0 =>
        rw [hold] at hv
        injection hv with hv
        intro rr hrr
        rw [← hv] at hrr
        rcases List.mem_append.mp hrr with holdm | hnew
        · obtain ⟨hl, he⟩ := hpages v rec0 hold rr holdm
          exact ⟨hside rr he hl, he⟩
        · have hrr_r : rr = r := by simpa using hnew
          subst hrr_r
          exact ⟨lookupA_insertA_self _ _ _, by rw [hro]; exact hr⟩
    · rw [lookupA_updateA_ne _ _ _ _ hvu] at hv
      intro rr hrr
      obtain ⟨hl, he⟩ := hpages v rec hv rr hrr
      exact ⟨hside rr he hl, he⟩
  · intro k rr hk
    by_cases hkr : k = r.originalUrl
    · subst hkr
      rw [lookupA_insertA_self] at hk
      injection hk with hk
      subst hk
      refine ⟨rfl, by rw [hro]; exact hr, ?_⟩
      obtain ⟨c, c', hc⟩ := hdl
      exact ⟨c, c', by rw [hro]; exact hc⟩
    · rw [lookupA_insertA_ne _ _ _ _ hkr] at hk
      exact hassets k rr hk

/-- One step of the per-asset loop preserves the cross-reference
invariant. -/
theorem wAssetStep_manifestInv (orc : WOracle) (url : String)
    (acc : WManifest × Nat) (a : String) (h : ManifestInv orc acc.1) :
    ManifestInv orc (wAssetStep orc url acc a).1 := by
  simp only [wAssetStep]
  split
  · split
    · rename_i r cc heq
      exact manifestInv_push orc acc.1 url a r
        (webflowDownloadAsset_some heq) ⟨acc.2, cc, heq⟩ h
    · exact h
  · exact h

/-- The whole per-asset loop preserves the cross-reference invariant. -/
theorem foldAssets_manifestInv (orc : WOracle) (url : String) :
    ∀ (as : List String) (acc : WManifest × Nat), ManifestInv orc acc.1 →
      ManifestInv orc ((as.foldl (wAssetStep orc url) acc)).1 := by
  intro as
  induction as with
  | nil => intro acc h; exact h
  | cons a as ih =>
    intro acc h
    rw [List.foldl_cons]
    exact ih _ (wAssetStep_manifestInv orc url acc a h)

/-- Updating a page record without touching its asset list preserves the
cross-reference invariant. -/
theorem manifestInv_updateA (orc : WOracle) (m : WManifest) (url : String)
    (f : PageRecord → PageRecord) (hf : ∀ rec, (f rec).assets = rec.assets)
    (h : ManifestInv orc m) :
    ManifestInv orc ⟨updateA m.pages url f, m.assets⟩ := by
  obtain ⟨hpages, hassets⟩ := h
  refine ⟨?_, hassets⟩
  intro v rec hv
  by_cases hvu : v = url
  · subst hvu
    rw [lookupA_updateA_self] at hv
    cases hold : lookupA m.pages v with
    | none =>
      rw [hold] at hv
      cases hv
    | some rec0 =>
      rw [hold] at hv
      injection hv with hv
      intro rr hrr
      rw [← hv, hf rec0] at hrr
      exact hpages v rec0 hold rr hrr
  · rw [lookupA_updateA_ne _ _ _ _ hvu] at hv
    exact hpages v rec hv

/-- Creating a fresh empty page record preserves the cross-reference
invariant. -/
theorem manifestInv_insert_empty (orc : WOracle) (m : WManifest) (url : String)
    (h : ManifestInv orc m) :
    ManifestInv orc ⟨insertA m.pages url ⟨[], none, none⟩, m.assets⟩ := by
  obtain ⟨hpages, hassets⟩ := h
  refine ⟨?_, hassets⟩
  intro v rec hv
  by_cases hvu : v = url
  · subst hvu
    rw [lookupA_insertA_self] at hv
    injection hv with hv
    intro rr hrr
    rw [← hv] at hrr
    cases hrr
  · rw [lookupA_insertA_ne _ _ _ _ hvu] at hv
    exact hpages v rec hv

/-- `processPage` preserves the cross-reference invariant. -/
theorem wProcessPage_manifestInv (orc : WOracle) (url : String)
    (m : WManifest) (c : Nat) (h : ManifestInv orc m) :
    ManifestInv orc (wProcessPage orc url m c).1 := by
  simp only [wProcessPage]
  cases hm : lookupA m.pages url with
  | some rec => exact h
  | none =>
    cases hr : orc.render url with
    | error e =>
      exact manifestInv_updateA orc
        ⟨insertA m.pages url ⟨[], none, none⟩, m.assets⟩ url
        (fun r => { r with error := some e }) (fun rec => rfl)
        (manifestInv_insert_empty orc m url h)
    | ok assets =>
      have hfold := foldAssets_manifestInv orc url assets
        ({ m with pages := insertA m.pages url ⟨[], none, none⟩ }, c)
        (manifestInv_insert_empty orc m url h)
      have hfin := manifestInv_updateA orc
        (assets.foldl (wAssetStep orc url)
          ({ m with pages := insertA m.pages url ⟨[], none, none⟩ }, c)).1
        url (fun rec => { rec with rawHtml := some ("pages/" ++ orc.md5 url ++ ".html") })
        (fun rec => rfl) hfold
      exact hfin

/-! ## String and prefix helper lemmas -/

theorem str_empty_append : ∀ s : String, "" ++ s = s := by
  intro s
  cases s
  rfl

theorem str_append_empty : ∀ s : String, s ++ "" = s := by
  intro s
  cases s with
  | mk l => exact congrArg String.mk (List.append_nil l)

theorem str_ext : ∀ {a b : String}, a.data = b.data → a = b := by
  intro a b h
  cases a
  cases b
  cases h
  rfl

/-- Cancellation for string concatenation when the left parts have equal
length. -/
theorem str_append_cancel {a b c d : String} (hlen : a.length = c.length)
    (h : a ++ b = c ++ d) : a = c ∧ b = d := by
  have hdata : a.data ++ b.data = c.data ++ d.data := by
    have := congrArg String.data h
    simpa using this
  obtain ⟨h1, h2⟩ := List.append_inj hdata hlen
  exact ⟨str_ext h1, str_ext h2⟩

theorem isPrefixL_length : ∀ {pat l : List Char},
    isPrefixL pat l = true → pat.length ≤ l.length := by
  intro pat
  induction pat with
  | nil =>
    intro l _
    simp
  | cons p ps ih =>
    intro l h
    cases l with
    | nil => simp [isPrefixL] at h
    | cons c cs =>
      simp only [isPrefixL, Bool.and_eq_true] at h
      simpa using ih h.2

theorem isPrefixL_append : ∀ {pat l : List Char} (t : List Char),
    isPrefixL pat l = true → isPrefixL pat (l ++ t) = true := by
  intro pat
  induction pat with
  | nil =>
    intro l t _
    simp [isPrefixL]
  | cons p ps ih =>
    intro l t h
    cases l with
    | nil => simp [isPrefixL] at h
    | cons c cs =>
      simp only [isPrefixL, Bool.and_eq_true] at h
      simp only [List.cons_append, isPrefixL, Bool.and_eq_true]
      exact ⟨h.1, ih t h.2⟩

theorem findClose_append : ∀ {l r : List Char}, findClose l = some r →
    ∀ t : List Char, findClose (l ++ t) = some (r ++ t) := by
  intro l
  induction l with
  | nil =>
    intro r h
    simp [findClose] at h
  | cons c cs ih =>
    intro r h t
    by_cases hc : c = '>'
    · subst hc
      simp only [findClose] at h
      injection h with h
      subst h
      simp [findClose]
    · simp only [List.cons_append, findClose, hc] at h ⊢
      exact ih h t

/-- First-match removal: when no position inside `a` starts a `<base`
match and `mid` is exactly one `<base ...>` tag (its first `>` after the
`<base` head is its last character), the regex of `build-site.js` line
16 removes exactly `mid` — everything before and after, including any
later base tags inside `b`, survives character for character. -/
theorem removeBase_decomp : ∀ (a mid b : List Char),
    (∀ i, i < a.length →
      isPrefixL baseTagChars ((a ++ (mid ++ b)).drop i) = false) →
    isPrefixL baseTagChars mid = true →
    findClose (mid.drop 5) = some [] →
    removeBaseL (a ++ (mid ++ b)) = a ++ b := by
  intro a
  induction a with
  | nil =>
    intro mid b ha hm1 hm2
    simp only [List.nil_append]
    cases mid with
    | nil => simp [isPrefixL, baseTagChars] at hm1
    | cons c cs =>
      have hpre : isPrefixL baseTagChars ((c :: cs) ++ b) = true :=
        isPrefixL_append b hm1
      have hlen : 5 ≤ (c :: cs).length := by
        have := isPrefixL_length hm1
        simpa [baseTagChars] using this
      have hdrop : ((c :: cs) ++ b).drop 5 = (c :: cs).drop 5 ++ b :=
        List.drop_append_of_le_length hlen
      rw [List.cons_append]
      simp only [removeBaseL]
      rw [if_pos (by simpa using hpre)]
      rw [show (c :: (cs ++ b)).drop 5 = ((c :: cs) ++ b).drop 5 from rfl, hdrop,
        findClose_append hm2 b]
      simp
  | cons c a ih =>
    intro mid b ha hm1 hm2
    rw [List.cons_append]
    simp only [removeBaseL]
    have h0 : isPrefixL baseTagChars (c :: (a ++ (mid ++ b))) = false := by
      have := ha 0 (by simp)
      simpa using this
    rw [if_neg (by simp [h0])]
    rw [List.cons_append]
    congr 1
    refine ih mid b ?_ hm1 hm2
    intro i hi
    have := ha (i + 1) (by simp; omega)
    simpa using this

/-! ## Downloader step lemmas -/

theorem wdl_step_ok (f : Nat → Bool) (md5 : String → String) (url : String)
    (att c : Nat) (hc : f c = true) :
    webflowDownloadAsset f md5 url (att + 1) c = (some (mkAssetRef md5 url), c + 1) := by
  simp [webflowDownloadAsset, hc]

theorem wdl_step_fail (f : Nat → Bool) (md5 : String → String) (url : String)
    (att c : Nat) (hc : f c = false) (hatt : att ≠ 0) :
    webflowDownloadAsset f md5 url (att + 1) c =
      webflowDownloadAsset f md5 url att (c + 1) := by
  simp [webflowDownloadAsset, hc, hatt]

theorem wdl_last_fail (f : Nat → Bool) (md5 : String → String) (url : String)
    (c : Nat) (hc : f c = false) :
    webflowDownloadAsset f md5 url 1 c = (none, c + 1) := by
  show webflowDownloadAsset f md5 url (0 + 1) c = (none, c + 1)
  simp [webflowDownloadAsset, hc]

/-- Three attempts where the first two fetches fail and the third
succeeds: an `AssetRef` after exactly three fetches. -/
theorem wdl_fail_fail_ok (f : Nat → Bool) (md5 : String → String) (url : String)
    (c : Nat) (h0 : f c = false) (h1 : f (c + 1) = false) (h2 : f (c + 2) = true) :
    webflowDownloadAsset f md5 url 3 c = (some (mkAssetRef md5 url), c + 3) := by
  have e3 : webflowDownloadAsset f md5 url 3 c =
      webflowDownloadAsset f md5 url 2 (c + 1) := by
    show webflowDownloadAsset f md5 url (2 + 1) c = _
    exact wdl_step_fail f md5 url 2 c h0 (by omega)
  have e2 : webflowDownloadAsset f md5 url 2 (c + 1) =
      webflowDownloadAsset f md5 url 1 (c + 2) := by
    show webflowDownloadAsset f md5 url (1 + 1) (c + 1) = _
    exact wdl_step_fail f md5 url 1 (c + 1) h1 (by omega)
  have e1 : webflowDownloadAsset f md5 url 1 (c + 2) =
      (some (mkAssetRef md5 url), c + 3) :=
    wdl_step_ok f md5 url 0 (c + 2) h2
  rw [e3, e2, e1]

/-- Three attempts all failing: no `AssetRef`, three fetches. -/
theorem wdl_all_fail (f : Nat → Bool) (md5 : String → String) (url : String)
    (c : Nat) (h0 : f c = false) (h1 : f (c + 1) = false) (h2 : f (c + 2) = false) :
    webflowDownloadAsset f md5 url 3 c = (none, c + 3) := by
  have e3 : webflowDownloadAsset f md5 url 3 c =
      webflowDownloadAsset f md5 url 2 (c + 1) := by
    show webflowDownloadAsset f md5 url (2 + 1) c = _
    exact wdl_step_fail f md5 url 2 c h0 (by omega)
  have e2 : webflowDownloadAsset f md5 url 2 (c + 1) =
      webflowDownloadAsset f md5 url 1 (c + 2) := by
    show webflowDownloadAsset f md5 url (1 + 1) (c + 1) = _
    exact wdl_step_fail f md5 url 1 (c + 1) h1 (by omega)
  have e1 : webflowDownloadAsset f md5 url 1 (c + 2) = (none, c + 3) :=
    wdl_last_fail f md5 url (c + 2) h2
  rw [e3, e2, e1]

/-! ## Claim theorems -/

/-- Claim C1, counterexample.  In `webflow-crawler.js` the downloader
consults no cache: after processing one page the shared asset URL has
an `AssetRef` recorded in the manifest's asset table and one fetch has
been issued, yet processing a second page that references the same URL
issues a second network fetch — two fetches for one URL in one run. -/
theorem dedup_missing_counterexample :
    lookupA (wProcessPage orcShared "https://apply.agency/" ⟨[], []⟩ 0).1.assets
        "https://assets.website-files.com/a.png" =
      some (mkAssetRef orcShared.md5 "https://assets.website-files.com/a.png") ∧
    (wProcessPage orcShared "https://apply.agency/" ⟨[], []⟩ 0).2 = 1 ∧
    (wProcessPage orcShared "https://apply.agency/cases"
      (wProcessPage orcShared "https://apply.agency/" ⟨[], []⟩ 0).1
      (wProcessPage orcShared "https://apply.agency/" ⟨[], []⟩ 0).2).2 = 2 := by
  decide

/-- Claim C1 (amended): only `crawler.js` deduplicates downloads.  Its
`downloadAsset` returns the cached path with an unchanged state
(no fetch) when the URL is in `downloadedAssets`, so calling it twice
on a URL whose first download succeeds issues exactly one fetch and
returns the same path; `webflow-crawler.js`' `downloadAsset` issues a
fresh network fetch on every call — two successful calls on the same
URL always count two fetches. -/
theorem downloader_dedup_amended :
    (∀ (netOk : Nat → Bool) (url : String) (st : CrawlerDlState) (p : String),
      lookupA st.downloadedAssets url = some p →
      crawlerDownloadAsset netOk url st = (p, st)) ∧
    (∀ (netOk : Nat → Bool) (url : String) (st : CrawlerDlState) (pu : UrlParts),
      lookupA st.downloadedAssets url = none →
      netOk st.fetchCount = true →
      parseUrl url = some pu →
      (crawlerDownloadAsset netOk url
        ((crawlerDownloadAsset netOk url st).2)).2.fetchCount = st.fetchCount + 1 ∧
      (crawlerDownloadAsset netOk url
        ((crawlerDownloadAsset netOk url st).2)).1 = "assets" ++ pu.pathname) ∧
    (∀ (f : Nat → Bool) (md5 : String → String) (url : String) (c : Nat),
      f c = true → f (c + 1) = true →
      (webflowDownloadAsset f md5 url 3
        ((webflowDownloadAsset f md5 url 3 c).2)).2 = c + 2) := by
  refine ⟨?_, ?_, ?_⟩
  · intro netOk url st p h
    simp [crawlerDownloadAsset, h]
  · intro netOk url st pu h hnet hparse
    have h1 : crawlerDownloadAsset netOk url st =
        ("assets" ++ pu.pathname,
         ⟨insertA st.downloadedAssets url ("assets" ++ pu.pathname),
          st.failedUrls, st.fetchCount + 1⟩) := by
      simp [crawlerDownloadAsset, h, hnet, hparse]
    rw [h1]
    simp [crawlerDownloadAsset, lookupA_insertA_self]
  · intro f md5 url c h0 h1
    rw [wdl_step_ok f md5 url 2 c h0]
    rw [show ((some (mkAssetRef md5 url), c + 1) : Option AssetRef × Nat).2 = c + 1 from rfl]
    rw [wdl_step_ok f md5 url 2 (c + 1) h1]

/-- Claim C1, witness for the amended theorem at a concrete oracle:
one successful download followed by a second call on the same URL
leaves the fetch count at one. -/
theorem downloader_dedup_amended_witness :
    (crawlerDownloadAsset (fun _ => true) "https://a.com/x.png"
      ((crawlerDownloadAsset (fun _ => true) "https://a.com/x.png"
        crawlerDlInit).2)).2.fetchCount = crawlerDlInit.fetchCount + 1 ∧
    (crawlerDownloadAsset (fun _ => true) "https://a.com/x.png"
      ((crawlerDownloadAsset (fun _ => true) "https://a.com/x.png"
        crawlerDlInit).2)).1 = "assets" ++ (⟨"a.com", "/x.png"⟩ : UrlParts).pathname :=
  downloader_dedup_amended.2.1 (fun _ => true) "https://a.com/x.png" crawlerDlInit
    ⟨"a.com", "/x.png"⟩ (by decide) (by decide) (by decide)

/-- Claim C2, counterexample.  For the spec's own example — page
`/cases` referencing `https://cdn/x.png` mapped to `assets/x.png` —
the built page contains `assets/x.png`, not the claimed
`../assets/x.png`: the page is written to the root-level file `cases`
(no `.html`, no directory), whose depth is zero. -/
theorem rewrite_depth_counterexample :
    processHtml "<img src=\"https://cdn/x.png\">" "https://apply.agency/cases"
      mfCases = some "<img src=\"assets/x.png\">" ∧
    containsStr "<img src=\"assets/x.png\">" "../assets/x.png" = false := by
  decide

/-- Claim C2 (amended): the builder rewrites a page's successfully
downloaded asset URLs (in `src`/`href`/`url(...)` positions) to the
local path prefixed by one `../` per path segment of the page's output
file name beyond the first.  `/cases` is written to the root-level file
`cases`, so its rewritten path is `assets/x.png` with zero `../` and
the original URL no longer occurs; a page at `/a/b` gets
`../assets/x.png`; a page whose asset failed to download (absent from
its manifest asset list) keeps its HTML unchanged apart from base-tag
removal, original URLs included. -/
theorem rewrite_relative_amended :
    (∀ frm dest : String,
      getRelativePath frm dest =
        strRepeat ((segsL frm.data).length - 1) "../" ++ dest) ∧
    (processHtml "<img src=\"https://cdn/x.png\">" "https://apply.agency/cases"
        mfCases = some "<img src=\"assets/x.png\">" ∧
      containsStr "<img src=\"assets/x.png\">" "https://cdn/x.png" = false) ∧
    (processHtml "<img src=\"https://cdn/x.png\">" "https://apply.agency/a/b"
        mfDeep = some "<img src=\"../assets/x.png\">") ∧
    (∀ rawContent pageUrl : String,
      processHtml rawContent pageUrl ⟨[(pageUrl, ⟨[]⟩)]⟩ =
        some (removeFirstBase rawContent)) := by
  refine ⟨?_, ⟨by decide, by decide⟩, by decide, ?_⟩
  · intro frm dest
    simp only [getRelativePath]
    by_cases h : (segsL frm.data).length - 1 > 0
    · rw [if_pos h]
    · rw [if_neg h]
      have h0 : (segsL frm.data).length - 1 = 0 := by omega
      rw [h0]
      exact (str_empty_append dest).symm
  · intro rawContent pageUrl
    simp [processHtml, lookupA]

/-- Claim C3, counterexample.  The `crawler.js` downloader cited by the
claim makes a single attempt: under a fetch oracle that fails the first
call and would succeed afterwards, it returns the original URL (the
failure value), has issued exactly one fetch — not three — and the URL
is in `failedUrls`; no successful result is ever produced. -/
theorem retry_counterexample :
    (crawlerDownloadAsset (fun k => k ≥ 1) "https://a.com/x.png"
      crawlerDlInit).1 = "https://a.com/x.png" ∧
    (crawlerDownloadAsset (fun k => k ≥ 1) "https://a.com/x.png"
      crawlerDlInit).2.fetchCount = 1 ∧
    (crawlerDownloadAsset (fun k => k ≥ 1) "https://a.com/x.png"
      crawlerDlInit).2.failedUrls = ["https://a.com/x.png"] := by
  decide

/-- Claim C3 (amended): the retry loop lives only in
`webflow-crawler.js`: its downloader makes up to 3 attempts, the
randomized backoff range `[2000·attempt, 5000·attempt]` widens strictly
with the attempt number, fail-fail-succeed yields the `AssetRef` after
exactly 3 fetches, and three failures yield `none` (no local path) —
but no failed set exists there.  `crawler.js` records failures in
`failedUrls` and returns the original URL, but makes exactly one
attempt. -/
theorem retry_backoff_amended :
    (∀ (f : Nat → Bool) (md5 : String → String) (url : String) (c : Nat),
      f c = false → f (c + 1) = false → f (c + 2) = true →
      webflowDownloadAsset f md5 url 3 c = (some (mkAssetRef md5 url), c + 3)) ∧
    (∀ (f : Nat → Bool) (md5 : String → String) (url : String) (c : Nat),
      f c = false → f (c + 1) = false → f (c + 2) = false →
      webflowDownloadAsset f md5 url 3 c = (none, c + 3)) ∧
    (∀ attempt : Nat, 1 ≤ attempt →
      backoffMin attempt < backoffMin (attempt + 1) ∧
      backoffMax attempt < backoffMax (attempt + 1) ∧
      backoffMin attempt ≤ backoffMax attempt) ∧
    (∀ (netOk : Nat → Bool) (url : String) (st : CrawlerDlState),
      lookupA st.downloadedAssets url = none →
      netOk st.fetchCount = false →
      crawlerDownloadAsset netOk url st =
        (url, ⟨st.downloadedAssets, insertS st.failedUrls url, st.fetchCount + 1⟩) ∧
      url ∈ insertS st.failedUrls url) := by
  refine ⟨wdl_fail_fail_ok, wdl_all_fail, ?_, ?_⟩
  · intro attempt h
    simp only [backoffMin, backoffMax]
    omega
  · intro netOk url st h hnet
    refine ⟨?_, mem_insertS_self st.failedUrls url⟩
    simp [crawlerDownloadAsset, h, hnet]

/-- Claim C3, witness: a concrete oracle failing the first two fetches
and succeeding on the third yields the `AssetRef` after exactly three
fetches. -/
theorem retry_backoff_amended_witness :
    webflowDownloadAsset (fun k => k = 2) (fun _ => "0a") "https://cdn/x.png" 3 0 =
      (some (mkAssetRef (fun _ => "0a") "https://cdn/x.png"), 0 + 3) :=
  retry_backoff_amended.1 (fun k => k = 2) (fun _ => "0a") "https://cdn/x.png" 0
    (by decide) (by decide) (by decide)

/-- Claim C4, counterexample.  The `crawler.js` local path is
`assets` + pathname, so two distinct URLs on different hosts with the
same pathname collide on the same local path. -/
theorem localpath_collision_counterexample :
    crawlerLocalPath "https://a.com/x.png" = some "assets/x.png" ∧
    crawlerLocalPath "https://b.com/x.png" = some "assets/x.png" ∧
    "https://a.com/x.png" ≠ "https://b.com/x.png" := by
  decide

/-- Claim C4 (amended): both local-path derivations are pure,
deterministic functions of the URL, but collision freedom fails for
`crawler.js`: its path depends only on the URL's pathname, so URLs with
equal pathnames collide.  The `webflow-crawler.js` path
`assets/` + hash + extension is collision-free exactly up to hash
collisions: for a fixed-width hash that separates two URLs, their local
paths differ. -/
theorem localpath_deterministic_amended :
    (∀ (u v : String) (pu pv : UrlParts),
      parseUrl u = some pu → parseUrl v = some pv →
      pu.pathname = pv.pathname →
      crawlerLocalPath u = crawlerLocalPath v) ∧
    (∀ (md5 : String → String) (url : String),
      (mkAssetRef md5 url).localPath =
        "assets/" ++ md5 url ++
          (if extnameJs url = "" then ".bin" else extnameJs url)) ∧
    (∀ (md5 : String → String) (u v : String),
      (md5 u).length = 32 → (md5 v).length = 32 →
      (md5 u = md5 v → u = v) → u ≠ v →
      (mkAssetRef md5 u).localPath ≠ (mkAssetRef md5 v).localPath) := by
  refine ⟨?_, ?_, ?_⟩
  · intro u v pu pv hu hv hpath
    simp [crawlerLocalPath, hu, hv, hpath]
  · intro md5 url
    rfl
  · intro md5 u v h32u h32v hinj huv heq
    have heq' : ("assets/" ++ md5 u) ++
        (if extnameJs u = "" then ".bin" else extnameJs u) =
        ("assets/" ++ md5 v) ++
        (if extnameJs v = "" then ".bin" else extnameJs v) := heq
    have hlen : ("assets/" ++ md5 u).length = ("assets/" ++ md5 v).length := by
      show ("assets/".data ++ (md5 u).data).length = ("assets/".data ++ (md5 v).data).length
      rw [List.length_append, List.length_append]
      have e1 : (md5 u).data.length = 32 := h32u
      have e2 : (md5 v).data.length = 32 := h32v
      omega
    obtain ⟨h1, -⟩ := str_append_cancel hlen heq'
    have hmd : md5 u = md5 v := by
      have h2 : ("assets/" : String).length = ("assets/" : String).length := rfl
      exact (str_append_cancel h2 h1).2
    exact huv (hinj hmd)

/-- Claim C4, witness: collision freedom of the hash-based path at a
concrete 32-character hash separating two URLs. -/
theorem localpath_deterministic_amended_witness :
    (mkAssetRef testMd5 "https://cdn/a.png").localPath ≠
      (mkAssetRef testMd5 "https://cdn/b.png").localPath :=
  localpath_deterministic_amended.2.2 testMd5 "https://cdn/a.png" "https://cdn/b.png"
    (by decide) (by decide) (by decide) (by decide)

/-- Claim C5: the domain filter is total and never throws — a string
that fails to parse as a URL yields `false`, a parseable URL yields
`true` exactly when its hostname contains some allow-list entry as a
substring, and the spec's three examples hold for allow-list
`{a.com}`.  `isAllowedDomain` and `isWebflowAsset` are this predicate
at the two fixed allow-lists. -/
theorem domain_filter_total (domains : List String) :
    (∀ url, parseUrl url = none → isAllowedDomainGen domains url = false) ∧
    (∀ url u, parseUrl url = some u →
      (isAllowedDomainGen domains url = true ↔
        ∃ d ∈ domains, containsStr u.hostname d = true)) ∧
    (∀ url, isAllowedDomain url = isAllowedDomainGen allowedDomainsConfig url) ∧
    (∀ url, isWebflowAsset url = isAllowedDomainGen webflowDomains url) ∧
    isAllowedDomainGen ["a.com"] "https://a.com/x" = true ∧
    isAllowedDomainGen ["a.com"] "https://evil.com" = false ∧
    isAllowedDomainGen ["a.com"] "not a url" = false := by
  refine ⟨?_, ?_, fun url => rfl, fun url => rfl, by decide, by decide, by decide⟩
  · intro url h
    simp [isAllowedDomainGen, h]
  · intro url u h
    simp [isAllowedDomainGen, h, List.any_eq_true]

/-- Claim C5, witness: the parse-failure clause at a concrete
unparseable input. -/
theorem domain_filter_total_witness :
    isAllowedDomainGen ["a.com"] "::not-a-url" = false :=
  (domain_filter_total ["a.com"]).1 "::not-a-url" (by decide)

/-- Claim C6, witness: on the two-page cycle (0 links to 1, 1 links to
0) the crawl log has no duplicates, page 1 is reached and processed,
and fuel 5 already gives the final state. -/
theorem crawl_frontier_safe_witness :
    (crawlRun 2 cycLinks cycAllowed 0).log.Nodup ∧
    (1 : Fin 2) ∈ (crawlRun 2 cycLinks cycAllowed 0).log ∧
    processPageM cycLinks cycAllowed 5 0 ⟨∅, []⟩ = crawlRun 2 cycLinks cycAllowed 0 := by
  obtain ⟨h1, h2, h3⟩ := crawl_frontier_safe 2 cycLinks cycAllowed 0
  exact ⟨h1, h2 1 (ReachM.step ReachM.base (by decide) rfl), h3 5 (by decide)⟩

/-- Claim C7, counterexample.  `build-site.js` never appends `.html`:
the page with source path `/cases` (which has no extension) is written
to the output file `cases`, not `cases.html`. -/
theorem output_path_counterexample :
    extnameJs "/cases" = "" ∧
    buildPagePath "/cases" = "cases" ∧
    buildPagePath "/cases" ≠ "cases.html" := by
  decide

/-- Claim C7 (amended): both phases write root and trailing-slash paths
to `index.html` under the corresponding directory; for other paths
`crawler.js` appends `.html` exactly when the path has no extension,
while `build-site.js` always uses the path verbatim and never appends
`.html`. -/
theorem output_path_amended :
    (buildPagePath "/" = "index.html" ∧ crawlerPagePath "/" = "index.html") ∧
    (∀ p, strEndsWith p "/" = true →
      buildPagePath p = strDrop1 p ++ "index.html" ∧
      crawlerPagePath p = strDrop1 p ++ "index.html") ∧
    (∀ p, strEndsWith p "/" = false → extnameJs p = "" →
      crawlerPagePath p = strDrop1 p ++ ".html" ∧
      buildPagePath p = strDrop1 p) ∧
    (∀ p, strEndsWith p "/" = false → extnameJs p ≠ "" →
      crawlerPagePath p = strDrop1 p ∧
      buildPagePath p = strDrop1 p) := by
  have hroot : ∀ p : String, strEndsWith p "/" = false → p ≠ "/" := by
    intro p h heq
    subst heq
    have : strEndsWith "/" "/" = true := by decide
    rw [this] at h
    cases h
  refine ⟨⟨by decide, by decide⟩, ?_, ?_, ?_⟩
  · intro p h
    by_cases hp : p = "/"
    · subst hp
      exact ⟨by decide, by decide⟩
    · constructor
      · simp [buildPagePath, hp, h]
      · simp [crawlerPagePath, h]
  · intro p h hext
    constructor
    · simp [crawlerPagePath, h, hext]
    · simp [buildPagePath, hroot p h, h, str_append_empty]
  · intro p h hext
    constructor
    · simp [crawlerPagePath, h, hext]
    · simp [buildPagePath, hroot p h, h, str_append_empty]

/-- Claim C7, witness: the extensionless path `/cases` at both
phases. -/
theorem output_path_amended_witness :
    crawlerPagePath "/cases" = strDrop1 "/cases" ++ ".html" ∧
    buildPagePath "/cases" = strDrop1 "/cases" :=
  output_path_amended.2.2.1 "/cases" (by decide) (by decide)

/-- Claim C8, witness: with an oracle whose render of the first target
page fails, both target pages still get records — the failed page with
its error recorded, the other processed normally. -/
theorem page_failure_isolated_witness :
    (∃ rec,
      lookupA (wCrawlPages orcRenderFail targetPages).1.pages
          "https://apply.agency/" = some rec ∧
      (∀ e, orcRenderFail.render "https://apply.agency/" = Except.error e →
        rec.error = some e ∧ rec.rawHtml = none ∧ rec.assets = []) ∧
      (∀ l, orcRenderFail.render "https://apply.agency/" = Except.ok l →
        rec.error = none ∧
        rec.rawHtml = some ("pages/" ++ orcRenderFail.md5 "https://apply.agency/" ++ ".html"))) ∧
    (∃ rec,
      lookupA (wCrawlPages orcRenderFail targetPages).1.pages
          "https://apply.agency/cases" = some rec ∧
      (∀ e, orcRenderFail.render "https://apply.agency/cases" = Except.error e →
        rec.error = some e ∧ rec.rawHtml = none ∧ rec.assets = []) ∧
      (∀ l, orcRenderFail.render "https://apply.agency/cases" = Except.ok l →
        rec.error = none ∧
        rec.rawHtml = some ("pages/" ++ orcRenderFail.md5 "https://apply.agency/cases" ++ ".html"))) :=
  ⟨page_failure_isolated orcRenderFail targetPages "https://apply.agency/" (by decide),
   page_failure_isolated orcRenderFail targetPages "https://apply.agency/cases" (by decide)⟩

/-- Claim C9: manifest cross-reference invariant.  After any sequence
of processed pages, every `AssetRef` in any page record is bound in the
global asset table under its original URL with the identical value
(hence identical `localPath`, `hash` and `extension`), every table key
equals its entry's original URL, and every entry arose from a
successful (non-null) downloader call. -/
theorem manifest_crossref_invariant (orc : WOracle) (urls : List String) :
    (∀ u rec, lookupA (wCrawlPages orc urls).1.pages u = some rec →
      ∀ r ∈ rec.assets,
        lookupA (wCrawlPages orc urls).1.assets r.originalUrl = some r) ∧
    (∀ u r, lookupA (wCrawlPages orc urls).1.assets u = some r →
      u = r.originalUrl ∧
      ∃ c c', webflowDownloadAsset orc.netOk orc.md5 u 3 c = (some r, c')) := by
  have h0 : ManifestInv orc (⟨[], []⟩ : WManifest) := by
    constructor
    · intro u rec hv
      simp [lookupA] at hv
    · intro u r hv
      simp [lookupA] at hv
  have hfold : ∀ (us : List String) (acc : WManifest × Nat),
      ManifestInv orc acc.1 →
      ManifestInv orc (us.foldl
        (fun (a : WManifest × Nat) u => wProcessPage orc u a.1 a.2) acc).1 := by
    intro us
    induction us with
    | nil => intro acc h; exact h
    | cons u us ih =>
      intro acc h
      rw [List.foldl_cons]
      exact ih _ (wProcessPage_manifestInv orc u acc.1 acc.2 h)
  obtain ⟨hp, ha⟩ := hfold urls ((⟨[], []⟩ : WManifest), 0) h0
  exact ⟨fun u rec h r hr => (hp u rec h r hr).1,
    fun u r h => ⟨(ha u r h).1, (ha u r h).2.2⟩⟩

/-- Claim C9, witness: a concrete crawl of one page with one shared
asset — the asset table binds the URL to its own `AssetRef` and the
entry has a successful-download provenance. -/
theorem manifest_crossref_invariant_witness :
    "https://assets.website-files.com/a.png" =
      (mkAssetRef orcShared.md5 "https://assets.website-files.com/a.png").originalUrl ∧
    ∃ c c', webflowDownloadAsset orcShared.netOk orcShared.md5
      "https://assets.website-files.com/a.png" 3 c =
      (some (mkAssetRef orcShared.md5 "https://assets.website-files.com/a.png"), c') :=
  (manifest_crossref_invariant orcShared ["https://apply.agency/"]).2
    "https://assets.website-files.com/a.png"
    (mkAssetRef orcShared.md5 "https://assets.website-files.com/a.png") (by decide)

/-- Claim C10: the builder removes only the first `<base ...>` match
before any URL rewriting.  When no position inside the prefix `a`
starts a `<base` match and `mid` is a single base tag, the removal of
`build-site.js` line 16 yields exactly `a ++ b` — later base tags
inside `b` and all other characters are untouched; a page absent from
the manifest undergoes base removal and nothing else; and on a
concrete document with two base tags only the first disappears. -/
theorem base_removed_first_only :
    (∀ a mid b : List Char,
      (∀ i, i < a.length →
        isPrefixL baseTagChars ((a ++ (mid ++ b)).drop i) = false) →
      isPrefixL baseTagChars mid = true →
      findClose (mid.drop 5) = some [] →
      removeBaseL (a ++ (mid ++ b)) = a ++ b) ∧
    (∀ rawContent pageUrl : String,
      processHtml rawContent pageUrl ⟨[]⟩ = some (removeFirstBase rawContent)) ∧
    (removeFirstBase "<head><base href=\"x\"><p><base id=\"2\"></head>" =
      "<head><p><base id=\"2\"></head>") := by
  refine ⟨removeBase_decomp, ?_, by decide⟩
  intro rawContent pageUrl
  simp [processHtml, lookupA]

/-- Claim C10, witness: the decomposition applied to a concrete
document whose second base tag survives. -/
theorem base_removed_first_only_witness :
    removeBaseL ("<p>".data ++ ("<base href=x>".data ++ "<base id=2>".data)) =
      "<p>".data ++ "<base id=2>".data :=
  base_removed_first_only.1 "<p>".data "<base href=x>".data "<base id=2>".data
    (by decide) (by decide) (by decide)
